import Mathlib

/-!
Shallow embedding of the velvet-noise library (`src/lib.rs`), the tap-delay
convolution engine (`src/main.rs`) and the allpass reverb (`examples/reverb.rs`),
with theorems checking the specification's claims against the code.

Randomness is modelled by explicit entropy streams: every random draw of the
program is a function of the next value of an ambient stream, so theorems
quantified over the stream cover every possible sequence of draws.
-/

set_option autoImplicit false

namespace VelvetNoise

/-- Outcome of running a Rust constructor: a value, an unguarded runtime trap
(arithmetic panic), or an explicit descriptive rejection of the configuration. -/
inductive ConstructResult (α : Type) where
  | ok : α → ConstructResult α
  | panicked : ConstructResult α
  | rejected : String → ConstructResult α
deriving DecidableEq

/-- State of `OVNImpulseLocations`: the step counter `m` (the `RangeFrom`
iterator) and the grid size `td`. -/
structure OVNState where
  m : Nat
  td : Nat
deriving DecidableEq, Repr

/-- Model of `rand`'s `gen_range(0, n)`: a draw in `[0, n)`, obtained by reducing
one raw entropy value modulo `n`; the call panics (`none`) when the range `[0, n)`
is empty, exactly as `gen_range` does for `low >= high`. -/
def genRange (n entropy : Nat) : Option Nat :=
  if n = 0 then none else some (entropy % n)

/-- Model of `OVNImpulseLocations::new`: stores `td = sample_rate / density`.
Rust `usize` division panics when `density == 0`; there is no explicit check in
the source, so that case is the `panicked` outcome, never `rejected`. -/
def OVNImpulseLocations.new (density sample_rate : Nat) : ConstructResult OVNState :=
  if density = 0 then ConstructResult.panicked
  else ConstructResult.ok { m := 0, td := sample_rate / density }

/-- Model of `OVNImpulseLocations::next`: returns `m * td + gen_range(0, td)` and
advances `m`. Panics (`none`) when the jitter range `[0, td)` is empty. -/
def OVNImpulseLocations.next (s : OVNState) (entropy : Nat) : Option (Nat × OVNState) :=
  match genRange s.td entropy with
  | none => none
  | some jitter => some (s.m * s.td + jitter, { s with m := s.m + 1 })

/-- The value produced at step `k` of the OVN sequence under entropy stream `e`. -/
def ovnValue (td : Nat) (e : Nat → Nat) (k : Nat) : Nat :=
  k * td + e k % td

/-- Running `OVNImpulseLocations` for `n` successive calls, each call drawing its
jitter from the entropy stream at the current counter value. -/
def ovnRun (e : Nat → Nat) : Nat → OVNState → Option (List Nat × OVNState)
  | 0, s => some ([], s)
  | n + 1, s =>
    match OVNImpulseLocations.next s (e s.m) with
    | none => none
    | some (v, s') =>
      match ovnRun e n s' with
      | none => none
      | some (vs, s'') => some (v :: vs, s'')

theorem ovn_next_eq (td : Nat) (htd : 1 ≤ td) (m entropy : Nat) :
    OVNImpulseLocations.next ⟨m, td⟩ entropy =
      some (m * td + entropy % td, ⟨m + 1, td⟩) := by
  have h : td ≠ 0 := by omega
  simp [OVNImpulseLocations.next, genRange, h]

theorem ovnRun_eq (e : Nat → Nat) (td : Nat) (htd : 1 ≤ td) :
    ∀ n m, ovnRun e n ⟨m, td⟩ =
      some ((List.range' m n).map (ovnValue td e), ⟨m + n, td⟩) := by
  intro n
  induction n with
  | zero => intro m; simp [ovnRun]
  | succ n ih =>
    intro m
    simp only [ovnRun, ovn_next_eq td htd, ih, List.range'_succ, List.map_cons,
      Option.some.injEq, Prod.mk.injEq, OVNState.mk.injEq, ovnValue, true_and, and_true]
    omega

theorem ovnValue_lt_succ (td : Nat) (htd : 1 ≤ td) (e : Nat → Nat) (k : Nat) :
    ovnValue td e k < ovnValue td e (k + 1) := by
  have h1 : e k % td < td := Nat.mod_lt _ (by omega)
  have h2 : (k + 1) * td ≤ ovnValue td e (k + 1) := Nat.le_add_right _ _
  have h3 : ovnValue td e k < (k + 1) * td := by
    unfold ovnValue
    have : (k + 1) * td = k * td + td := by ring
    omega
  omega

theorem chain_lt_map_range (f : Nat → Nat) (hf : ∀ k, f k < f (k + 1)) :
    ∀ n m, List.Chain' (· < ·) ((List.range' m n).map f) := by
  intro n
  induction n with
  | zero => intro m; simp
  | succ n ih =>
    intro m
    rw [List.range'_succ, List.map_cons]
    rcases n with _ | n
    · simp
    · rw [List.range'_succ, List.map_cons, List.chain'_cons]
      refine ⟨hf m, ?_⟩
      have := ih (m + 1)
      rwa [List.range'_succ, List.map_cons] at this

theorem ovn_new_ok (d s : Nat) (hd : 1 ≤ d) :
    OVNImpulseLocations.new d s = ConstructResult.ok ⟨0, s / d⟩ := by
  have h : d ≠ 0 := by omega
  simp [OVNImpulseLocations.new, h]

/-- C1: for every density `d` and sample rate `s` with `1 ≤ d ≤ s`, the values
produced by successive calls to `OVNImpulseLocations::next` are strictly
increasing, for every possible sequence of jitter draws. -/
theorem claim1_ovn_strictly_increasing (d s : Nat) (hd : 1 ≤ d) (hds : d ≤ s)
    (st : OVNState) (hnew : OVNImpulseLocations.new d s = ConstructResult.ok st)
    (e : Nat → Nat) (n : Nat) :
    ∃ out st', ovnRun e n st = some (out, st') ∧ List.Chain' (· < ·) out := by
  have htd : 1 ≤ s / d := (Nat.one_le_div_iff (by omega)).mpr hds
  rw [ovn_new_ok d s hd] at hnew
  injection hnew with hst
  subst hst
  refine ⟨_, _, ovnRun_eq e (s / d) htd n 0, ?_⟩
  exact chain_lt_map_range _ (ovnValue_lt_succ (s / d) htd e) n 0

theorem claim1_witness :
    OVNImpulseLocations.new 441 44100 = ConstructResult.ok ⟨0, 100⟩ ∧
    (∃ out st', ovnRun (fun k => k + 7) 4 ⟨0, 100⟩ = some (out, st') ∧
      List.Chain' (· < ·) out) :=
  ⟨by decide,
   claim1_ovn_strictly_increasing 441 44100 (by decide) (by decide) ⟨0, 100⟩ (by decide)
     (fun k => k + 7) 4⟩

/-- C9: the constructor computes `td = floor(sample_rate / density)`, and the
`n`-th call to `next` returns `n * td + jitter` where the step counter takes
values 0, 1, 2, ... in order and each jitter draw lies in `[0, td)`. -/
theorem claim9_ovn_values (d s : Nat) (hd : 1 ≤ d)
    (st : OVNState) (hnew : OVNImpulseLocations.new d s = ConstructResult.ok st)
    (e : Nat → Nat) (n : Nat) :
    st.td = s / d ∧ st.m = 0 ∧
    (d ≤ s →
      ovnRun e n st =
        some ((List.range n).map (fun k => k * (s / d) + e k % (s / d)), ⟨n, s / d⟩) ∧
      ∀ k, e k % (s / d) < s / d) := by
  rw [ovn_new_ok d s hd] at hnew
  injection hnew with hst
  subst hst
  refine ⟨rfl, rfl, fun hds => ?_⟩
  have htd : 1 ≤ s / d := (Nat.one_le_div_iff (by omega)).mpr hds
  refine ⟨?_, fun k => Nat.mod_lt _ (by omega)⟩
  rw [ovnRun_eq e (s / d) htd n 0, List.range_eq_range']
  simp [ovnValue]

theorem claim9_witness :
    OVNImpulseLocations.new 441 44100 = ConstructResult.ok ⟨0, 100⟩ ∧
    (⟨0, 100⟩ : OVNState).td = 100 ∧ (⟨0, 100⟩ : OVNState).m = 0 ∧
    ovnRun (fun k => k) 3 ⟨0, 100⟩ = some ([0, 101, 202], ⟨3, 100⟩) ∧
    (∀ k, k % 100 < 100) := by
  have h := claim9_ovn_values 441 44100 (by decide) ⟨0, 100⟩ (by decide)
    (fun k => k) 3
  have h2 := h.2.2 (by decide)
  refine ⟨by decide, h.1, h.2.1, ?_, h2.2⟩
  simpa using h2.1

/-- C10: constructing with `density > sample_rate ≥ 1` succeeds (with `td = 0`)
but every subsequent call to `next` fails on the empty jitter range `[0, 0)`;
`next` always succeeds when `sample_rate ≥ density ≥ 1`. -/
theorem claim10_ovn_next_partial (d s : Nat) (hs : 1 ≤ s) (hds : s < d) :
    OVNImpulseLocations.new d s = ConstructResult.ok ⟨0, 0⟩ ∧
    (∀ m entropy, OVNImpulseLocations.next ⟨m, 0⟩ entropy = none) ∧
    (∀ d' s' st' entropy, 1 ≤ d' → d' ≤ s' →
      OVNImpulseLocations.new d' s' = ConstructResult.ok st' →
      (OVNImpulseLocations.next st' entropy).isSome) := by
  refine ⟨?_, ?_, ?_⟩
  · rw [ovn_new_ok d s (by omega), Nat.div_eq_of_lt hds]
  · intro m entropy
    simp [OVNImpulseLocations.next, genRange]
  · intro d' s' st' entropy hd' hds' hnew
    have htd : 1 ≤ s' / d' := (Nat.one_le_div_iff (by omega)).mpr hds'
    rw [ovn_new_ok d' s' hd'] at hnew
    injection hnew with hst
    subst hst
    rw [ovn_next_eq (s' / d') htd]
    rfl

theorem claim10_witness :
    OVNImpulseLocations.new 96000 44100 = ConstructResult.ok ⟨0, 0⟩ ∧
    (∀ m entropy, OVNImpulseLocations.next ⟨m, 0⟩ entropy = none) ∧
    (∀ d' s' st' entropy, 1 ≤ d' → d' ≤ s' →
      OVNImpulseLocations.new d' s' = ConstructResult.ok st' →
      (OVNImpulseLocations.next st' entropy).isSome) :=
  claim10_ovn_next_partial 96000 44100 (by decide) (by decide)

/-- C7: constructing `OVNImpulseLocations` with `density == 0` hits the
unguarded `usize` division (a runtime trap); the source contains no explicit,
descriptive rejection of this configuration. -/
theorem claim7_density_zero_traps :
    OVNImpulseLocations.new 0 44100 = ConstructResult.panicked ∧
    ∀ msg, OVNImpulseLocations.new 0 44100 ≠ ConstructResult.rejected msg := by
  refine ⟨rfl, ?_⟩
  intro msg h
  simp [OVNImpulseLocations.new] at h

/-- State of `ARNImpulseLocations`. The Rust fields are `f32`; the model uses
exact rational arithmetic for the same formulas. -/
structure ARNState where
  m_prev : ℚ
  td_minus_1 : ℚ
  delta : ℚ
deriving DecidableEq

/-- Model of `ARNImpulseLocations::new`: no validation at all, every
configuration constructs; `td_minus_1 = sample_rate / density - 1`. -/
def ARNImpulseLocations.new (density sample_rate delta : ℚ) : ARNState :=
  { m_prev := 0, td_minus_1 := sample_rate / density - 1, delta := delta }

/-- Model of `ARNImpulseLocations::next`. The draw `u` is the uniform sample in
`[0, 1)`; the result is `val as usize` (floor, saturating at 0 for negatives). -/
def ARNImpulseLocations.next (st : ARNState) (u : ℚ) : Nat × ARNState :=
  let val := st.m_prev + 1 + st.td_minus_1 * (1 - st.delta)
    + 2 * st.delta * st.td_minus_1 * u
  (⌊val⌋.toNat, { st with m_prev := val })

theorem arn_next_eval (m td d u : ℚ) :
    ARNImpulseLocations.next ⟨m, td, d⟩ u =
      (⌊m + 1 + td * (1 - d) + 2 * d * td * u⌋.toNat,
        ⟨m + 1 + td * (1 - d) + 2 * d * td * u, td, d⟩) := rfl

/-- C6: `ARNImpulseLocations::new` accepts `density > sample_rate` (here
density 4, sample rate 1, delta 1, giving `td_minus_1 = -3/4`) instead of
rejecting it, and the resulting iterator then produces decreasing values:
with draws `u = 0` and `u = 9/10` it yields 1 and then 0. -/
theorem claim6_arn_accepts_invalid_config :
    ARNImpulseLocations.new 4 1 1 = ⟨0, -3/4, 1⟩ ∧
    ARNImpulseLocations.next ⟨0, -3/4, 1⟩ 0 = (1, ⟨1, -3/4, 1⟩) ∧
    ARNImpulseLocations.next ⟨1, -3/4, 1⟩ (9/10) = (0, ⟨13/20, -3/4, 1⟩) ∧
    (0 : Nat) < 1 := by
  refine ⟨?_, ?_, ?_, Nat.zero_lt_one⟩
  · simp only [ARNImpulseLocations.new, ARNState.mk.injEq]
    norm_num
  · rw [arn_next_eval]
    simp only [Prod.mk.injEq, ARNState.mk.injEq]
    norm_num
  · rw [arn_next_eval]
    simp only [Prod.mk.injEq, ARNState.mk.injEq]
    norm_num

/-- State of the tap set in `process` (`src/main.rs`): the live `(position, gain)`
taps and the number of signs drawn so far from the replenishment `Choice`. -/
structure TapState where
  taps : List (Nat × ℚ)
  drawn : Nat
deriving DecidableEq

/-- One advance/retire/replenish step of the `process` loop in `src/main.rs`:
every position is incremented, taps with `position > max_index` are retired
(`retain` keeps `position <= max_index`), and one fresh tap `(0, sign)` is pushed
per retired tap, with signs drawn in order from the `Choice` stream. -/
def tapStep (maxIndex : Nat) (choice : Nat → ℚ) (s : TapState) : TapState :=
  let advanced := s.taps.map (fun t => (t.1 + 1, t.2))
  let kept := advanced.filter (fun t => t.1 ≤ maxIndex)
  let numNew := advanced.length - kept.length
  { taps := kept ++ (List.range numNew).map (fun i => (0, choice (s.drawn + i)))
    drawn := s.drawn + numNew }

/-- Iterating the advance/retire/replenish step over `n` processed samples. -/
def tapRun (maxIndex : Nat) (choice : Nat → ℚ) : Nat → TapState → TapState
  | 0, s => s
  | n + 1, s => tapRun maxIndex choice n (tapStep maxIndex choice s)

theorem tapStep_length (maxIndex : Nat) (choice : Nat → ℚ) (s : TapState) :
    (tapStep maxIndex choice s).taps.length = s.taps.length := by
  unfold tapStep
  simp only [List.length_append, List.length_map, List.length_filter_le,
    List.length_range]
  have hle : ((s.taps.map (fun t => (t.1 + 1, t.2))).filter
      (fun t => t.1 ≤ maxIndex)).length ≤ s.taps.length := by
    calc ((s.taps.map (fun t => (t.1 + 1, t.2))).filter
        (fun t => t.1 ≤ maxIndex)).length
        ≤ (s.taps.map (fun t => (t.1 + 1, t.2))).length := List.length_filter_le _ _
      _ = s.taps.length := List.length_map _ _
  omega

theorem tapStep_positions (N : Nat) (hN : 1 ≤ N) (choice : Nat → ℚ) (s : TapState) :
    ∀ t ∈ (tapStep (N - 1) choice s).taps, t.1 < N := by
  intro t ht
  unfold tapStep at ht
  rcases List.mem_append.mp ht with h | h
  · have := List.of_mem_filter h
    have hle : t.1 ≤ N - 1 := by simpa using this
    omega
  · rcases List.mem_map.mp h with ⟨i, _, rfl⟩
    simpa using hN

/-- C2: in the tap-delay convolution engine, after each advance/retire/replenish
step the number of taps is unchanged and every tap position lies in `[0, N)`
where `N` is the source buffer length, for every initial tap set with positions
in `[0, N)`, every sign stream and every number of processed samples. -/
theorem claim2_tapset_invariant (N : Nat) (hN : 1 ≤ N) (choice : Nat → ℚ)
    (s0 : TapState) (h0 : ∀ t ∈ s0.taps, t.1 < N) (n : Nat) :
    (tapRun (N - 1) choice n s0).taps.length = s0.taps.length ∧
    ∀ t ∈ (tapRun (N - 1) choice n s0).taps, t.1 < N := by
  induction n generalizing s0 with
  | zero => exact ⟨rfl, h0⟩
  | succ n ih =>
    have hstep := tapStep_positions N hN choice s0
    have h := ih (tapStep (N - 1) choice s0) hstep
    refine ⟨?_, h.2⟩
    rw [show tapRun (N - 1) choice (n + 1) s0
      = tapRun (N - 1) choice n (tapStep (N - 1) choice s0) from rfl, h.1,
      tapStep_length]

theorem claim2_witness :
    (1 : Nat) ≤ 3 ∧
    (∀ t ∈ ([(0, 1), (2, -1)] : List (Nat × ℚ)), t.1 < 3) ∧
    ((tapRun 2 (fun _ => 1) 5 ⟨[(0, 1), (2, -1)], 0⟩).taps.length = 2 ∧
      ∀ t ∈ (tapRun 2 (fun _ => 1) 5 ⟨[(0, 1), (2, -1)], 0⟩).taps, t.1 < 3) := by
  have h := claim2_tapset_invariant 3 (by decide) (fun _ => 1)
    ⟨[(0, 1), (2, -1)], 0⟩ (by decide) 5
  exact ⟨by decide, by decide, h.1, h.2⟩

/-- Model of `dasp_ring_buffer::Fixed`: a slice plus the cursor `first` of the
oldest element. `get(i)` reads `data[(first + i) % len]` (index 0 is the oldest
element, index `len - 1` the most recently pushed); `push` overwrites the oldest
element and advances `first`. -/
structure Fixed where
  first : Nat
  data : List ℚ
deriving DecidableEq

def Fixed.get (b : Fixed) (i : Nat) : ℚ :=
  b.data.getD ((b.first + i) % b.data.length) 0

def Fixed.push (b : Fixed) (x : ℚ) : Fixed :=
  { first := (b.first + 1) % b.data.length, data := b.data.set b.first x }

/-- State of one `AllPass` stage from `examples/reverb.rs`. -/
structure AllPass where
  buffer : Fixed
  delay_index : Nat
  g : ℚ
deriving DecidableEq

/-- Model of `AllPass::new`: a zeroed delay line of length `delay`, with
`delay_index = delay - 1`. -/
def AllPass.new (delay : Nat) (feedback : ℚ) : AllPass :=
  { buffer := ⟨0, List.replicate delay 0⟩, delay_index := delay - 1, g := feedback }

/-- Model of `AllPass::process` exactly as written in the source: it reads
`buffer.get(delay_index)` — which, since `delay_index = len - 1`, is the MOST
RECENTLY pushed element of the `Fixed` ring buffer — then pushes the feedback
value and returns `delay + feedback * g`. -/
def AllPass.process (ap : AllPass) (sample : ℚ) : ℚ × AllPass :=
  let delay := ap.buffer.get ap.delay_index
  let feedback := sample + delay * (-ap.g)
  let buffer1 := ap.buffer.push feedback
  let feedforward := feedback * ap.g
  (delay + feedforward, { ap with buffer := buffer1 })

/-- Stage behaviour as the specification describes it (for comparison): read the
OLDEST sample in the delay line, push `feedback = input - g * delayed` (evicting
that oldest sample), output `delayed + g * feedback`. -/
def AllPass.processAsSpecified (ap : AllPass) (sample : ℚ) : ℚ × AllPass :=
  let delayed := ap.buffer.get 0
  let feedback := sample - ap.g * delayed
  let buffer1 := ap.buffer.push feedback
  (delayed + ap.g * feedback, { ap with buffer := buffer1 })

/-- One input sample through the cascade: each stage in order, the output of one
stage feeding the next, as in the reverb main loop. -/
def cascadeProcess : List AllPass → ℚ → ℚ × List AllPass
  | [], x => (x, [])
  | ap :: rest, x =>
    let p := ap.process x
    let q := cascadeProcess rest p.1
    (q.1, p.2 :: q.2)

/-- The cascade over a whole input sequence (code behaviour). -/
def cascadeRun : List AllPass → List ℚ → List ℚ × List AllPass
  | aps, [] => ([], aps)
  | aps, x :: xs =>
    let p := cascadeProcess aps x
    let q := cascadeRun p.2 xs
    (p.1 :: q.1, q.2)

/-- The cascade as the specification describes each stage (for comparison). -/
def cascadeProcessAsSpecified : List AllPass → ℚ → ℚ × List AllPass
  | [], x => (x, [])
  | ap :: rest, x =>
    let p := ap.processAsSpecified x
    let q := cascadeProcessAsSpecified rest p.1
    (q.1, p.2 :: q.2)

/-- The specified cascade over a whole input sequence. -/
def cascadeRunAsSpecified : List AllPass → List ℚ → List ℚ × List AllPass
  | aps, [] => ([], aps)
  | aps, x :: xs =>
    let p := cascadeProcessAsSpecified aps x
    let q := cascadeRunAsSpecified p.2 xs
    (p.1 :: q.1, q.2)

/-- C5 (refutation at a concrete input): a single stage with delay 2 and
`g = 1/2`, fed the input `[1, 0]`, outputs `[1/2, 3/4]` under the code — the
stage reads the most recently pushed sample, so the second output already sees
the first feedback value — while the specified oldest-sample behaviour outputs
`[1/2, 0]`; the two disagree on the second output sample. -/
theorem claim5_allpass_reads_newest_not_oldest :
    (cascadeRun [AllPass.new 2 (1/2)] [1, 0]).1 = [1/2, 3/4] ∧
    (cascadeRunAsSpecified [AllPass.new 2 (1/2)] [1, 0]).1 = [1/2, 0] ∧
    ((3 : ℚ)/4 ≠ 0) := by
  refine ⟨?_, ?_, by norm_num⟩
  · norm_num [cascadeRun, cascadeProcess, AllPass.process, AllPass.new,
      Fixed.get, Fixed.push]
  · norm_num [cascadeRunAsSpecified, cascadeProcessAsSpecified,
      AllPass.processAsSpecified, AllPass.new, Fixed.get, Fixed.push]

/-- Model of the per-sample output emission at the end of the reverb main loop:
scale by the output gain, then `assert!(samp_out < 1.)` — a panic (`none`) only
when the scaled sample is `>= 1.0`; otherwise the sample is written. -/
def emitSample (output_gain samp : ℚ) : Option ℚ :=
  let s := samp * output_gain
  if s < 1 then some s else none

/-- C8: the reverb output guard is one-sided. A pre-gain sample of `-10` (gain
`1/5`) scales to `-2`, whose magnitude exceeds the ceiling 1, yet it passes the
`samp_out < 1.0` assertion and is written silently — it is neither in `[-1, 1)`
nor surfaced as a failure; only the positive rail (here pre-gain `10`) panics. -/
theorem claim8_negative_rail_unchecked :
    emitSample (1/5) (-10) = some (-2) ∧
    (1 : ℚ) ≤ |(-2 : ℚ)| ∧
    ¬((-1 : ℚ) ≤ -2) ∧
    emitSample (1/5) 10 = none := by
  refine ⟨?_, by norm_num, by norm_num, ?_⟩
  · norm_num [emitSample]
  · norm_num [emitSample]

/-- State of `ChunkedOVNImpulseLocations`: the wrapped OVN iterator, the chunk
length, the running base offset, and the pending carried-over index. -/
structure ChunkedState where
  impulses : OVNState
  chunk_length : Nat
  base : Nat
  store : Option Nat
deriving DecidableEq, Repr

/-- Model of `ChunkedOVNImpulseLocations::new`. -/
def ChunkedOVNImpulseLocations.new (density sample_rate chunk_length : Nat) :
    ConstructResult ChunkedState :=
  match OVNImpulseLocations.new density sample_rate with
  | ConstructResult.ok ovn => ConstructResult.ok ⟨ovn, chunk_length, 0, none⟩
  | ConstructResult.panicked => ConstructResult.panicked
  | ConstructResult.rejected msg => ConstructResult.rejected msg

/-- The drain loop of `ChunkedOVNImpulseLocations::next`: repeatedly pull the
next impulse `x`; while `x - base < chunk_length` collect it, otherwise store
it, advance `base` by `chunk_length` and stop, returning
`(chunk, ovn state, new base, stored x)`. A `none` models a panic: the
underlying `next` panics when `td = 0`, and `x - self.base` underflows when
`x < base`. The Rust loop is unbounded; the fuel argument is a modelling bound:
the `m`-th impulse is at least `m * td ≥ m`, so starting fuel
`base + chunk_length + 1` can never be exhausted (established by
`chunkLoop_spec` below). -/
def chunkLoop (e : Nat → Nat) (L : Nat) :
    Nat → OVNState → Nat → List Nat → Option (List Nat × OVNState × Nat × Nat)
  | 0, _, _, _ => none
  | fuel + 1, ovn, base, acc =>
    match OVNImpulseLocations.next ovn (e ovn.m) with
    | none => none
    | some (x, ovn1) =>
      if x < base then none
      else if x - base < L then chunkLoop e L fuel ovn1 base (acc ++ [x])
      else some (acc, ovn1, base + L, x)

/-- Model of `ChunkedOVNImpulseLocations::next`: start the chunk with the
carried-over stored index if any (pushed without any range check), then drain
the wrapped iterator. -/
def ChunkedOVNImpulseLocations.next (e : Nat → Nat) (s : ChunkedState) :
    Option (List Nat × ChunkedState) :=
  let init : List Nat := match s.store with | some x => [x] | none => []
  match chunkLoop e s.chunk_length (s.base + s.chunk_length + 1) s.impulses s.base init with
  | none => none
  | some (chunk, ovn1, base1, x) =>
    some (chunk, ⟨ovn1, s.chunk_length, base1, some x⟩)

/-- Running the chunked iterator for `n` successive calls. -/
def chunkedRun (e : Nat → Nat) :
    Nat → ChunkedState → Option (List (List Nat) × ChunkedState)
  | 0, s => some ([], s)
  | n + 1, s =>
    match ChunkedOVNImpulseLocations.next e s with
    | none => none
    | some (c, s1) =>
      match chunkedRun e n s1 with
      | none => none
      | some (cs, s2) => some (c :: cs, s2)

theorem le_mul_of_one_le (m td : Nat) (htd : 1 ≤ td) : m ≤ m * td :=
  calc m = m * 1 := (Nat.mul_one m).symm
    _ ≤ m * td := Nat.mul_le_mul_left m htd

/-- Full characterisation of one run of the drain loop, provided `td ≥ 1` and
`base ≤ m * td`: it terminates within the fuel, consumes impulses `m` to
`m1 - 1`, emits impulses `m` to `m1 - 2` into the chunk (each in range of the
current chunk), and stores impulse `m1 - 1`, the first one at or beyond
`base + L`. -/
theorem chunkLoop_spec (e : Nat → Nat) (L td : Nat) (htd : 1 ≤ td) :
    ∀ fuel m base acc, 1 ≤ fuel → base ≤ m * td → base + L + 1 ≤ fuel + m →
    ∃ m1, m < m1 ∧
      chunkLoop e L fuel ⟨m, td⟩ base acc =
        some (acc ++ (List.range' m (m1 - 1 - m)).map (ovnValue td e),
          ⟨m1, td⟩, base + L, ovnValue td e (m1 - 1)) ∧
      (∀ k, m ≤ k → k + 1 < m1 →
        base ≤ ovnValue td e k ∧ ovnValue td e k - base < L) ∧
      base + L ≤ ovnValue td e (m1 - 1) ∧
      ovnValue td e (m1 - 1) < m1 * td := by
  intro fuel
  induction fuel with
  | zero => intro m base acc hf; omega
  | succ fuel ih =>
    intro m base acc _ hbase hfm
    have hmle : m ≤ m * td := le_mul_of_one_le m td htd
    have hjlt : e m % td < td := Nat.mod_lt _ (by omega)
    have hxge : m * td ≤ ovnValue td e m := Nat.le_add_right _ _
    have hxlt : ovnValue td e m < (m + 1) * td := by
      unfold ovnValue
      have h1 : (m + 1) * td = m * td + td := Nat.succ_mul m td
      omega
    rw [chunkLoop]
    simp only [show (⟨m, td⟩ : OVNState).m = m from rfl, ovn_next_eq td htd m (e m),
      show (m * td + e m % td) = ovnValue td e m from rfl]
    rw [if_neg (by omega : ¬ ovnValue td e m < base)]
    by_cases hcase : ovnValue td e m - base < L
    · rw [if_pos hcase]
      have hxltbL : ovnValue td e m < base + L := by omega
      have hmltbL : m < base + L := by omega
      obtain ⟨m1, hm1, heq, hin, hsto, hm1lt⟩ :=
        ih (m + 1) base (acc ++ [ovnValue td e m]) (by omega)
          (le_trans hbase (Nat.mul_le_mul_right td (by omega))) (by omega)
      refine ⟨m1, by omega, ?_, ?_, hsto, hm1lt⟩
      · rw [heq]
        have hsplit : m1 - 1 - m = (m1 - 1 - (m + 1)) + 1 := by omega
        rw [hsplit, List.range'_succ, List.map_cons]
        simp [List.append_assoc]
      · intro k hk hk1
        rcases Nat.eq_or_lt_of_le hk with h | h
        · subst h
          exact ⟨by omega, hcase⟩
        · exact hin k (by omega) hk1
    · rw [if_neg hcase]
      refine ⟨m + 1, Nat.lt_succ_self m, ?_, ?_, ?_, ?_⟩
      · simp
      · intro k hk hk1; omega
      · have : m + 1 - 1 = m := rfl
        rw [this]
        omega
      · rw [show m + 1 - 1 = m from rfl]
        exact hxlt

/-- Characterisation of one call of `ChunkedOVNImpulseLocations::next` from a
state whose base does not exceed the next impulse's grid cell start. -/
theorem chunkedNext_spec (e : Nat → Nat) (td L : Nat) (htd : 1 ≤ td)
    (m base : Nat) (sto : Option Nat) (hbase : base ≤ m * td) :
    ∃ m1, m < m1 ∧
      ChunkedOVNImpulseLocations.next e ⟨⟨m, td⟩, L, base, sto⟩ =
        some (sto.toList ++ (List.range' m (m1 - 1 - m)).map (ovnValue td e),
          ⟨⟨m1, td⟩, L, base + L, some (ovnValue td e (m1 - 1))⟩) ∧
      (∀ k, m ≤ k → k + 1 < m1 →
        base ≤ ovnValue td e k ∧ ovnValue td e k - base < L) ∧
      base + L ≤ ovnValue td e (m1 - 1) ∧
      ovnValue td e (m1 - 1) < m1 * td := by
  obtain ⟨m1, hm1, heq, hin, hsto, hlt⟩ :=
    chunkLoop_spec e L td htd (base + L + 1) m base sto.toList (by omega) hbase (by omega)
  refine ⟨m1, hm1, ?_, hin, hsto, hlt⟩
  unfold ChunkedOVNImpulseLocations.next
  cases sto with
  | none => simp only [Option.toList] at heq ⊢; rw [heq]
  | some x => simp only [Option.toList] at heq ⊢; rw [heq]

/-- Run-level invariant for the concatenation property: the emitted chunks plus
the pending stored index
reproduce exactly the prefix of the underlying OVN output sequence consumed so
far, with nothing duplicated and nothing dropped. -/
theorem chunkedRun_concat (e : Nat → Nat) (td L : Nat) (htd : 1 ≤ td) :
    ∀ n m base sto, base ≤ m * td →
    ∃ chunks m1 sto1, chunkedRun e n ⟨⟨m, td⟩, L, base, sto⟩ =
        some (chunks, ⟨⟨m1, td⟩, L, base + n * L, sto1⟩) ∧
      chunks.length = n ∧ m ≤ m1 ∧ base + n * L ≤ m1 * td ∧
      (n = 0 → m1 = m ∧ sto1 = sto) ∧
      chunks.flatten ++ sto1.toList =
        sto.toList ++ (List.range' m (m1 - m)).map (ovnValue td e) := by
  intro n
  induction n with
  | zero =>
    intro m base sto hbase
    refine ⟨[], m, sto, ?_, rfl, le_refl m, ?_, fun _ => ⟨rfl, rfl⟩, ?_⟩
    · simp [chunkedRun]
    · simpa using hbase
    · simp
  | succ n ih =>
    intro m base sto hbase
    obtain ⟨m2, hm2, heq1, _, hsto2, hlt2⟩ := chunkedNext_spec e td L htd m base sto hbase
    obtain ⟨chunks, m1, sto1, heq2, hlen, hle, hinv, _, hflat⟩ :=
      ih m2 (base + L) (some (ovnValue td e (m2 - 1))) (by omega)
    refine ⟨(sto.toList ++ (List.range' m (m2 - 1 - m)).map (ovnValue td e)) :: chunks,
      m1, sto1, ?_, ?_, by omega, ?_, ?_, ?_⟩
    · rw [chunkedRun]
      simp only [heq1, heq2]
      rw [show base + L + n * L = base + (n + 1) * L by ring]
    · simpa using hlen
    · have : base + (n + 1) * L = base + L + n * L := by ring
      omega
    · intro h; omega
    · rw [List.flatten_cons, List.append_assoc, hflat]
      simp only [Option.toList, List.append_assoc]
      congr 1
      have hsplit : List.range' m (m1 - m) =
          (List.range' m (m2 - 1 - m) ++ [m2 - 1]) ++ List.range' m2 (m1 - m2) := by
        have h1 : List.range' m (m2 - 1 - m) ++ [m + 1 * (m2 - 1 - m)] =
            List.range' m ((m2 - 1 - m) + 1) := (List.range'_concat m (m2 - 1 - m)).symm
        rw [show m + 1 * (m2 - 1 - m) = m2 - 1 by omega] at h1
        rw [h1]
        have h2 := List.range'_append m ((m2 - 1 - m) + 1) (m1 - m2) 1
        rw [show m + 1 * ((m2 - 1 - m) + 1) = m2 by omega] at h2
        rw [h2]
        congr 1
        omega
      rw [hsplit]
      simp [List.append_assoc]

/-- C4: concatenating, in order, all chunks emitted by
`ChunkedOVNImpulseLocations` (together with the one index still pending in
`store`) yields exactly the prefix of the index sequence produced by the
wrapped `OVNImpulseLocations` generator: no index is duplicated and none is
dropped across chunk boundaries, for every jitter stream and every
`chunk_length ≥ 1`. -/
theorem claim4_concat_reproduces_stream (d s L : Nat) (hd : 1 ≤ d) (hds : d ≤ s)
    (hL : 1 ≤ L) (st : ChunkedState)
    (hnew : ChunkedOVNImpulseLocations.new d s L = ConstructResult.ok st)
    (e : Nat → Nat) (n : Nat) :
    ∃ chunks st1, chunkedRun e n st = some (chunks, st1) ∧ chunks.length = n ∧
      chunks.flatten ++ st1.store.toList =
        (List.range st1.impulses.m).map (ovnValue (s / d) e) ∧
      ovnRun e st1.impulses.m ⟨0, s / d⟩ =
        some ((List.range st1.impulses.m).map (ovnValue (s / d) e), st1.impulses) := by
  have htd : 1 ≤ s / d := (Nat.one_le_div_iff (by omega)).mpr hds
  unfold ChunkedOVNImpulseLocations.new at hnew
  rw [ovn_new_ok d s hd] at hnew
  injection hnew with hst
  subst hst
  obtain ⟨chunks, m1, sto1, heq, hlen, _, _, _, hflat⟩ :=
    chunkedRun_concat e (s / d) L htd n 0 0 none (by omega)
  refine ⟨chunks, _, heq, hlen, ?_, ?_⟩
  · rw [hflat]
    simp [List.range_eq_range']
  · rw [show (⟨⟨m1, s / d⟩, L, 0 + n * L, sto1⟩ : ChunkedState).impulses.m = m1 from rfl,
      ovnRun_eq e (s / d) htd m1 0, List.range_eq_range', Nat.zero_add]

theorem claim4_witness :
    ChunkedOVNImpulseLocations.new 2000 96000 960 =
      ConstructResult.ok ⟨⟨0, 48⟩, 960, 0, none⟩ ∧
    (∃ chunks st1, chunkedRun (fun k => 7 * k) 2 ⟨⟨0, 48⟩, 960, 0, none⟩ =
        some (chunks, st1) ∧ chunks.length = 2 ∧
      chunks.flatten ++ st1.store.toList =
        (List.range st1.impulses.m).map (ovnValue (96000 / 2000) (fun k => 7 * k)) ∧
      ovnRun (fun k => 7 * k) st1.impulses.m ⟨0, 96000 / 2000⟩ =
        some ((List.range st1.impulses.m).map (ovnValue (96000 / 2000) (fun k => 7 * k)),
          st1.impulses)) :=
  ⟨by decide,
   claim4_concat_reproduces_stream 2000 96000 960 (by decide) (by decide) (by decide)
     ⟨⟨0, 48⟩, 960, 0, none⟩ (by decide) (fun k => 7 * k) 2⟩

theorem ovnValue_step (td : Nat) (htd : 1 ≤ td) (e : Nat → Nat) (k : Nat)
    (hk : 1 ≤ k) : ovnValue td e k < ovnValue td e (k - 1) + 2 * td := by
  obtain ⟨k1, rfl⟩ : ∃ k1, k = k1 + 1 := ⟨k - 1, by omega⟩
  unfold ovnValue
  have h1 : e (k1 + 1) % td < td := Nat.mod_lt _ (by omega)
  have h2 : (k1 + 1) * td = k1 * td + td := Nat.succ_mul k1 td
  simp only [Nat.add_sub_cancel]
  omega

/-- When `chunk_length ≥ 2 * td`, the index a call stores for the next chunk is
always inside that next chunk: impulses visit every grid cell, so the first
index to leave the current chunk cannot also clear the following one. -/
theorem stored_in_next_chunk (e : Nat → Nat) (td L : Nat) (htd : 1 ≤ td)
    (hL : 2 * td ≤ L) (m base m1 : Nat) (h1 : m < m1)
    (hin : ∀ k, m ≤ k → k + 1 < m1 →
      base ≤ ovnValue td e k ∧ ovnValue td e k - base < L)
    (hfirst : (m = 0 ∧ base = 0) ∨ (1 ≤ m ∧ ovnValue td e (m - 1) < base + L)) :
    ovnValue td e (m1 - 1) < base + L + L := by
  by_cases hc : m1 = m + 1
  · have hm1 : m1 - 1 = m := by omega
    rw [hm1]
    rcases hfirst with ⟨rfl, rfl⟩ | ⟨hm, hprev⟩
    · have h0 : e 0 % td < td := Nat.mod_lt _ (by omega)
      unfold ovnValue
      simp only [Nat.zero_mul]
      omega
    · have hstep := ovnValue_step td htd e m hm
      omega
  · obtain ⟨hge, hlt⟩ := hin (m1 - 2) (by omega) (by omega)
    have hstep := ovnValue_step td htd e (m1 - 1) (by omega)
    rw [show m1 - 1 - 1 = m1 - 2 by omega] at hstep
    omega

/-- Run-level invariant for the in-range property, under `chunk_length ≥ 2*td`:
every element of the `i`-th emitted chunk, the carried-over index included, lies
in `[base + i*L, base + i*L + L)`. -/
theorem chunkedRun_inrange (e : Nat → Nat) (td L : Nat) (htd : 1 ≤ td)
    (hL : 2 * td ≤ L) :
    ∀ n m base sto, base ≤ m * td →
    ((sto = none ∧ m = 0 ∧ base = 0) ∨
      (sto = some (ovnValue td e (m - 1)) ∧ 1 ≤ m ∧
        base ≤ ovnValue td e (m - 1) ∧ ovnValue td e (m - 1) < base + L)) →
    ∃ chunks st1, chunkedRun e n ⟨⟨m, td⟩, L, base, sto⟩ = some (chunks, st1) ∧
      chunks.length = n ∧
      ∀ i, i < n → ∀ x ∈ chunks.getD i [], base + i * L ≤ x ∧ x - (base + i * L) < L := by
  intro n
  induction n with
  | zero =>
    intro m base sto hbase hinv
    refine ⟨[], ⟨⟨m, td⟩, L, base, sto⟩, by simp [chunkedRun], rfl, ?_⟩
    intro i hi
    exact absurd hi (Nat.not_lt_zero i)
  | succ n ih =>
    intro m base sto hbase hinv
    obtain ⟨m2, hm2, heq1, hin, hsto, hlt⟩ := chunkedNext_spec e td L htd m base sto hbase
    have hfirst : (m = 0 ∧ base = 0) ∨ (1 ≤ m ∧ ovnValue td e (m - 1) < base + L) := by
      rcases hinv with ⟨_, hm, hb⟩ | ⟨_, hm, _, hx⟩
      · exact Or.inl ⟨hm, hb⟩
      · exact Or.inr ⟨hm, hx⟩
    have hsharp := stored_in_next_chunk e td L htd hL m base m2 hm2 hin hfirst
    obtain ⟨chunks, st1, heq2, hlen, hrange⟩ :=
      ih m2 (base + L) (some (ovnValue td e (m2 - 1))) (by omega)
        (Or.inr ⟨rfl, by omega, hsto, by omega⟩)
    refine ⟨(sto.toList ++ (List.range' m (m2 - 1 - m)).map (ovnValue td e)) :: chunks,
      st1, ?_, by simpa using hlen, ?_⟩
    · rw [chunkedRun]
      simp only [heq1, heq2]
    · intro i hi x hx
      cases i with
      | zero =>
        simp only [List.getD_cons_zero] at hx
        rcases List.mem_append.mp hx with hmem | hmem
        · rcases hinv with ⟨rfl, _, _⟩ | ⟨hs, _, hxge, hxlt⟩
          · simp at hmem
          · rw [hs] at hmem
            simp only [Option.toList, List.mem_singleton] at hmem
            subst hmem
            constructor <;> omega
        · obtain ⟨k, hk, rfl⟩ := List.mem_map.mp hmem
          rw [List.mem_range'_1] at hk
          obtain ⟨h5, h6⟩ := hin k hk.1 (by omega)
          constructor <;> omega
      | succ i =>
        simp only [List.getD_cons_succ] at hx
        have h7 := hrange i (by omega) x hx
        have h8 : base + L + i * L = base + (i + 1) * L := by ring
        rw [h8] at h7
        exact h7

/-- C3 (amended): provided `chunk_length ≥ 2 * td`, every index contained in a
chunk emitted by `ChunkedOVNImpulseLocations::next` — the carried-over stored
index included — minus the chunk's base offset lies in `[0, chunk_length)`,
for every underlying jitter stream. -/
theorem claim3_chunk_indices_in_range (d s L : Nat) (hd : 1 ≤ d) (hds : d ≤ s)
    (hL : 2 * (s / d) ≤ L) (st : ChunkedState)
    (hnew : ChunkedOVNImpulseLocations.new d s L = ConstructResult.ok st)
    (e : Nat → Nat) (n : Nat) :
    ∃ chunks st1, chunkedRun e n st = some (chunks, st1) ∧ chunks.length = n ∧
      ∀ i, i < n → ∀ x ∈ chunks.getD i [], i * L ≤ x ∧ x - i * L < L := by
  have htd : 1 ≤ s / d := (Nat.one_le_div_iff (by omega)).mpr hds
  unfold ChunkedOVNImpulseLocations.new at hnew
  rw [ovn_new_ok d s hd] at hnew
  injection hnew with hst
  subst hst
  obtain ⟨chunks, st1, heq, hlen, hrange⟩ :=
    chunkedRun_inrange e (s / d) L htd hL n 0 0 none (by omega) (Or.inl ⟨rfl, rfl, rfl⟩)
  refine ⟨chunks, st1, heq, hlen, ?_⟩
  intro i hi x hx
  have h := hrange i hi x hx
  simpa using h

theorem claim3_witness :
    2 * (96000 / 2000) ≤ 960 ∧
    (∃ chunks st1, chunkedRun (fun _ => 0) 1 ⟨⟨0, 48⟩, 960, 0, none⟩ =
        some (chunks, st1) ∧ chunks.length = 1 ∧
      ∀ i, i < 1 → ∀ x ∈ chunks.getD i [], i * 960 ≤ x ∧ x - i * 960 < 960) :=
  ⟨by decide,
   claim3_chunk_indices_in_range 2000 96000 960 (by decide) (by decide) (by decide)
     ⟨⟨0, 48⟩, 960, 0, none⟩ (by decide) (fun _ => 0) 1⟩

/-- Jitter stream used by the counterexample to C3 as originally stated. -/
def jitter1 : Nat → Nat := fun m => if m = 0 then 5 else if m = 1 then 2 else 0

/-- C3 is false as stated: with density 1, sample rate 10 (so `td = 10`) and
chunk length 3, the underlying stream (jitter draws 5, 2, 0, ...) produces
5, 12, 20, ...; the second call stores 12, and the third call emits the chunk
`[12]` whose base offset is `2 * 3 = 6`, and `12 - 6 = 6` is not in `[0, 3)`:
the carried-over index lies outside its chunk. -/
theorem claim3_counterexample :
    ChunkedOVNImpulseLocations.new 1 10 3 =
      ConstructResult.ok ⟨⟨0, 10⟩, 3, 0, none⟩ ∧
    chunkedRun jitter1 3 ⟨⟨0, 10⟩, 3, 0, none⟩ =
      some ([[], [5], [12]], ⟨⟨3, 10⟩, 3, 9, some 20⟩) ∧
    12 ∈ [12] ∧ 2 * 3 ≤ 12 ∧ ¬(12 - 2 * 3 < 3) := by decide

end VelvetNoise
